import Mathlib

/-!
Verification of the core of the ESP-MIAO wake-word firmware
(`src/firmware/esp32_edge_impulse/main/main.cpp`).

The development shallowly embeds the audio acquisition loops
(`read_audio_slice`, `read_audio_to_buffer`), the chunked base64/JSON
streaming transport (`send_audio_stream`), the detection gate of
`inference_task`, the post-trigger capture/stream sequence, and the inbound
command handler (`handle_server_action`).

Modelling conventions:
- 32-bit samples from the I2S bus are modelled as `Int` (the C values fit
  in 32 bits; no arithmetic in the modelled code overflows, and the one
  shift `raw_l >> 11` is the arithmetic shift `Int.shiftRight`).
- C `float` arithmetic is modelled exactly over `ℚ` (all float values that
  occur — clamped 16-bit samples and their squares — are integers well
  inside the exactly representable range; `sqrtf` is modelled by `Real.sqrt`
  for exact statements and kept opaque as a parameter where only its use,
  not its value, matters).
- The I2S bus is an oracle: a list of read results, one per
  `i2s_channel_read` call, each either a failure or a list of stereo frames
  (pairs of left/right 32-bit samples).  `got_frames = bytes_read / 8`
  in the C code caps the frames delivered at the frames requested; the
  model applies the same cap with `List.take`.
- WebSocket sends are an oracle `sendOk : Nat → Bool` indexed by the send
  number within one `send_audio_stream` call (0 = `audio_start`,
  k+1 = chunk k); heap allocation success is the flag `allocOk`.
- Envelope fields `device_id` (a constant) and `timestamp` (a tick count)
  carry no claim-relevant information and are omitted from the model;
  the `%.3f` formatting of the confidence is elided (the payload carries
  the rational value).
-/

namespace EspMiao

/-! ### Configuration constants, from the source defines -/

def SAMPLE_RATE : Nat := 16000

def RECORD_DURATION_SEC : Nat := 3

def AUDIO_SAMPLES_3S : Nat := SAMPLE_RATE * RECORD_DURATION_SEC

/-- The source constant `#define VAD_THRESHOLD 2000.0f`. -/
def VAD_THRESHOLD : ℚ := 2000

/-- The chunk size `const size_t CHUNK_SAMPLES = 2048` in `send_audio_stream`. -/
def CHUNK_SAMPLES : Nat := 2048

/-- The per-read cap `const size_t chunk_frames = 256` in both audio readers. -/
def chunk_frames : Nat := 256

/-! ### Per-frame scaling

Both readers extract the left channel `i2s_buf[i * 2]`, shift it right by
11 and clamp to the signed 16-bit range.  The two code sites are textually
identical; they are embedded separately (one produces the `float` slice
sample, the other the `int16_t` recording sample) so that their agreement
is a provable statement, not a definitional artifact. -/

/-- One sample as written by `read_audio_slice` (a stereo frame is the pair
`(i2s_buf[2*i], i2s_buf[2*i+1])`; `out_buffer[...] = (float)s`). -/
def slice_sample (frame : Int × Int) : ℚ :=
  let raw_l := frame.1
  let s0 := Int.shiftRight raw_l 11
  let s1 := if s0 > 32767 then 32767 else s0
  let s2 := if s1 < -32768 then -32768 else s1
  (s2 : ℚ)

/-- One sample as written by `read_audio_to_buffer`
(`out_buffer[...] = (int16_t)s`; the cast is exact because `s` has been
clamped into the 16-bit range). -/
def rec_sample (frame : Int × Int) : Int :=
  let raw_l := frame.1
  let s0 := Int.shiftRight raw_l 11
  let s1 := if s0 > 32767 then 32767 else s0
  let s2 := if s1 < -32768 then -32768 else s1
  s2

/-! ### The acquisition loops -/

/-- Result of one `i2s_channel_read` call: failure (`ret != ESP_OK`) or a
list of delivered stereo frames. -/
inductive BusRead where
  | ok (frames : List (Int × Int))
  | err
deriving DecidableEq

/-- Outcome of an acquisition loop run against a finite oracle prefix:
`done` (the C function returns `true` with the filled buffer), `failed`
(the C function returns `false`), or `running` (the loop is still going
when the oracle prefix is exhausted — used to witness non-termination). -/
inductive LoopResult (α : Type) where
  | done (val : α)
  | failed
  | running
deriving DecidableEq

/-- Embedding of the `while (samples_read < num_mono_samples)` loop of
`read_audio_slice`, accumulating the float samples and `sum_sq`. -/
def sliceLoop (n : Nat) : List BusRead → List ℚ → ℚ → LoopResult (List ℚ × ℚ)
  | [], acc, sum_sq =>
      if n ≤ acc.length then .done (acc, sum_sq) else .running
  | r :: rest, acc, sum_sq =>
      if n ≤ acc.length then .done (acc, sum_sq)
      else
        match r with
        | .err => .failed
        | .ok frames =>
            let frames_to_read := min (n - acc.length) chunk_frames
            let got := frames.take frames_to_read
            sliceLoop n rest (acc ++ got.map slice_sample)
              (sum_sq + (got.map (fun f => slice_sample f * slice_sample f)).sum)

/-- The function `read_audio_slice(out_buffer, num_mono_samples, out_rms)`.  On `done`
the pair is the filled buffer and the accumulated `sum_sq`; the RMS output
is `sqrtf(sum_sq / num_mono_samples)` (see `rms_value`).  On `failed`
nothing is produced, exactly as the C function returns before writing
`*out_rms`. -/
def read_audio_slice (reads : List BusRead) (n : Nat) : LoopResult (List ℚ × ℚ) :=
  sliceLoop n reads [] 0

/-- Embedding of the `while (samples_read < num_samples)` loop of
`read_audio_to_buffer`. -/
def recLoop (n : Nat) : List BusRead → List Int → LoopResult (List Int)
  | [], acc =>
      if n ≤ acc.length then .done acc else .running
  | r :: rest, acc =>
      if n ≤ acc.length then .done acc
      else
        match r with
        | .err => .failed
        | .ok frames =>
            let frames_to_read := min (n - acc.length) chunk_frames
            let got := frames.take frames_to_read
            recLoop n rest (acc ++ got.map rec_sample)

/-- The function `read_audio_to_buffer(out_buffer, num_samples)`. -/
def read_audio_to_buffer (reads : List BusRead) (n : Nat) : LoopResult (List Int) :=
  recLoop n reads []

/-- The RMS value reported by `read_audio_slice` on success:
`*out_rms = sqrtf(sum_sq / num_mono_samples)`, over the reals. -/
noncomputable def rms_value (sum_sq : ℚ) (n : Nat) : ℝ :=
  Real.sqrt ((sum_sq : ℝ) / (n : ℝ))

/-! ### Base64 (RFC 4648, as `mbedtls_base64_encode`)

Bytes and characters are modelled as `Nat` (byte values / ASCII codes). -/

/-- The base64 alphabet: sextet value to ASCII code. -/
def sextetChar (k : Nat) : Nat :=
  if k < 26 then 65 + k
  else if k < 52 then 97 + (k - 26)
  else if k < 62 then 48 + (k - 52)
  else if k = 62 then 43
  else 47

/-- Inverse of the base64 alphabet: ASCII code to sextet value. -/
def sextetVal (c : Nat) : Nat :=
  if 65 ≤ c ∧ c ≤ 90 then c - 65
  else if 97 ≤ c ∧ c ≤ 122 then (c - 97) + 26
  else if 48 ≤ c ∧ c ≤ 57 then (c - 48) + 52
  else if c = 43 then 62
  else if c = 47 then 63
  else 0

/-- Standard padded base64 encoding of a byte list (61 is the ASCII code
of the padding character). -/
def b64encode : List Nat → List Nat
  | [] => []
  | [a] => [sextetChar (a / 4), sextetChar (a % 4 * 16), 61, 61]
  | [a, b] => [sextetChar (a / 4), sextetChar (a % 4 * 16 + b / 16),
               sextetChar (b % 16 * 4), 61]
  | a :: b :: c :: rest =>
      sextetChar (a / 4) :: sextetChar (a % 4 * 16 + b / 16) ::
      sextetChar (b % 16 * 4 + c / 64) :: sextetChar (c % 64) ::
      b64encode rest

/-- Base64 decoding of a padded base64 string. -/
def b64decode : List Nat → List Nat
  | c1 :: c2 :: c3 :: c4 :: rest =>
      if c3 = 61 then [sextetVal c1 * 4 + sextetVal c2 / 16]
      else if c4 = 61 then
        [sextetVal c1 * 4 + sextetVal c2 / 16,
         sextetVal c2 % 16 * 16 + sextetVal c3 / 4]
      else
        (sextetVal c1 * 4 + sextetVal c2 / 16) ::
        (sextetVal c2 % 16 * 16 + sextetVal c3 / 4) ::
        (sextetVal c3 % 4 * 64 + sextetVal c4) ::
        b64decode rest
  | _ => []

/-- The two memory bytes of one little-endian two's-complement `int16_t`,
as read by `mbedtls_base64_encode` from `(const unsigned char *)audio_data`
on the little-endian ESP32. -/
def toBytes16 (s : Int) : List Nat :=
  let u := (s % 65536).toNat
  [u % 256, u / 256]

/-- The raw byte image of an `int16_t` sample buffer. -/
def bytesOfSamples (l : List Int) : List Nat :=
  (l.map toBytes16).flatten

/-! ### The chunked streaming transport -/

/-- A JSON envelope produced by `send_audio_stream`, restricted to the
claim-relevant fields (see the modelling conventions above). -/
inductive Envelope where
  | audioStart (total_samples : Nat) (confidence : ℚ)
  | audioChunk (chunk_index : Nat) ( is_last : Bool) (data_base64 : List Nat)
deriving DecidableEq

/-- The chunk-sending loop (`while (samples_sent < sample_count)`) of
`send_audio_stream`.  The first component is `samples_sent >= sample_count`
at loop exit; the second lists the successfully sent chunk envelopes.
A failed send breaks out of the loop without the envelope being delivered.
The `fuel` argument only bounds the iteration count; `fuel ≥` the number of
remaining samples always suffices because every iteration consumes at least
one sample (`CHUNK_SAMPLES ≥ 1`). -/
def sendChunksAux (sendOk : Nat → Bool) : Nat → Nat → List Int → Bool × List Envelope
  | _, _, [] => (true, [])
  | 0, _, _ :: _ => (false, [])
  | fuel + 1, chunk_idx, s :: rest =>
      let remaining := s :: rest
      let to_send := min remaining.length CHUNK_SAMPLES
      let chunk := remaining.take to_send
      let env := Envelope.audioChunk chunk_idx (decide (remaining.length ≤ CHUNK_SAMPLES))
        (b64encode (bytesOfSamples chunk))
      if sendOk (chunk_idx + 1) then
        let r := sendChunksAux sendOk fuel (chunk_idx + 1) (remaining.drop to_send)
        (r.1, env :: r.2)
      else (false, [])

/-- The function `send_audio_stream(audio_data, sample_count, confidence)` with
`sample_count = audio_data.length`.  Returns the C result together with
the list of successfully delivered envelopes, in send order. -/
def send_audio_stream (ws_connected allocOk : Bool) (sendOk : Nat → Bool)
    (audio_data : List Int) (confidence : ℚ) : Bool × List Envelope :=
  if ¬ ws_connected then (false, [])
  else
    let start := Envelope.audioStart audio_data.length confidence
    if ¬ sendOk 0 then (false, [])
    else if ¬ allocOk then (false, [start])
    else
      let r := sendChunksAux sendOk audio_data.length 0 audio_data
      (r.1, start :: r.2)

/-- Projection to the `chunk_index` fields of the `audio_chunk` envelopes of a stream,
in send order. -/
def chunkIdxs (envs : List Envelope) : List Nat :=
  envs.filterMap fun e =>
    match e with
    | .audioChunk i _ _ => some i
    | _ => none

/-- Projection to the `is_last` fields of the `audio_chunk` envelopes, in send order. -/
def chunkLasts (envs : List Envelope) : List Bool :=
  envs.filterMap fun e =>
    match e with
    | .audioChunk _ b _ => some b
    | _ => none

/-- Projection to the `data_base64` payloads of the `audio_chunk` envelopes, in send
order. -/
def chunkDatas (envs : List Envelope) : List (List Nat) :=
  envs.filterMap fun e =>
    match e with
    | .audioChunk _ _ d => some d
    | _ => none

/-- Whether an envelope is an `audio_start` message. -/
def isStartEnv : Envelope → Bool
  | .audioStart _ _ => true
  | _ => false

/-! ### The detection gate and the orchestration cycle -/

/-- The label scan of `inference_task`: fold over the classifier label/value
pairs, recording the confidence of `"heymiaomiao"` and raising the wake
flag when `confidence >= threshold && rms > VAD_THRESHOLD`.
`thr` is `EI_CLASSIFIER_THRESHOLD` (model metadata, outside this source
file; the firmware banner documents it as 0.6). -/
def detection_gate (thr : ℚ) (cats : List (String × ℚ)) (current_rms : ℚ) : Bool × ℚ :=
  cats.foldl
    (fun st c =>
      if c.1 = "heymiaomiao" then
        (st.1 || (decide (thr ≤ c.2) && decide (VAD_THRESHOLD < current_rms)), c.2)
      else st)
    (false, 0)

/-- The post-trigger sequence of `inference_task`: reset
`recording_complete`, run the 3-second capture, and stream on success.
`captureRes` is the outcome of `read_audio_to_buffer(recording_buffer,
AUDIO_SAMPLES_3S)` (`some buf` = success with buffer contents `buf`).
Returns the final `recording_complete` flag and the delivered envelopes. -/
def trigger_sequence (captureRes : Option (List Int))
    (ws_connected allocOk : Bool) (sendOk : Nat → Bool)
    (confidence : ℚ) : Bool × List Envelope :=
  match captureRes with
  | none => (false, [])
  | some buf =>
      let recording_complete := true
      let recording_samples := AUDIO_SAMPLES_3S
      if recording_complete ∧ 0 < recording_samples then
        (recording_complete, (send_audio_stream ws_connected allocOk sendOk buf confidence).2)
      else (recording_complete, [])

/-- Observable outcome of one iteration of the `while (1)` loop of
`inference_task`.  The loop always proceeds to the next iteration
(returns to listening); `recordingComplete` is the `recording_complete`
flag as left by this iteration (`false` when the iteration did not set
it). -/
structure CycleObs where
  classifierInvoked : Bool
  gateEvaluated : Bool
  wake : Bool
  recordingComplete : Bool
  sent : List Envelope

/-- One iteration of the inference loop.  `sliceRes` is the outcome of
`read_audio_slice(ei_slice_buffer, n, &current_rms)`; `classifierRes` is
the outcome of `run_classifier_continuous` (`none` = failure, otherwise
the confidences of the three model labels `heymiaomiao`/`noise`/`unknown`);
`sqrtf` is the opaque float square root used to produce `current_rms`.
A `running` slice read never returns in C; the model maps it, like
`failed`, to a cycle in which nothing downstream happens. -/
def inference_cycle (n : Nat) (sqrtf : ℚ → ℚ)
    (sliceRes : LoopResult (List ℚ × ℚ))
    (classifierRes : Option (ℚ × ℚ × ℚ)) (thr : ℚ)
    (captureRes : Option (List Int))
    (ws_connected allocOk : Bool) (sendOk : Nat → Bool) : CycleObs :=
  match sliceRes with
  | .failed => ⟨false, false, false, false, []⟩
  | .running => ⟨false, false, false, false, []⟩
  | .done (_buf, sum_sq) =>
      match classifierRes with
      | none => ⟨true, false, false, false, []⟩
      | some (c_hey, c_noise, c_unknown) =>
          let current_rms := sqrtf (sum_sq / (n : ℚ))
          let g := detection_gate thr
            [("heymiaomiao", c_hey), ("noise", c_noise), ("unknown", c_unknown)]
            current_rms
          if g.1 then
            let t := trigger_sequence captureRes ws_connected allocOk sendOk g.2
            ⟨true, true, true, t.1, t.2⟩
          else ⟨true, true, false, false, []⟩

/-! ### The inbound command handler -/

/-- A parsed JSON value, as held by a `cJSON` node. -/
inductive JVal where
  | jnull
  | jstr (s : String)
  | jnum (v : ℚ)
  | jbool (b : Bool)
  | jobj (fields : List (String × JVal))
  | jarr (elems : List JVal)

/-- The lookup `cJSON_GetObjectItem`: look a field up in an object, `none` (NULL)
otherwise. -/
def getObjectItem (v : JVal) (key : String) : Option JVal :=
  match v with
  | .jobj fields => (fields.find? fun f => f.1 = key).map (·.2)
  | _ => none

/-- Model of the `valuestring` field of a `cJSON` node: the string for a string
node, NULL (`none`) for every other node type. -/
def valuestring : JVal → Option String
  | .jstr s => some s
  | _ => none

/-- Outcome of `handle_server_action`: normal return with the list of
`(gpio_num, level)` pairs passed to `gpio_set_level`, or a crash (a NULL
pointer dereferenced, or NULL passed to `strcmp`/`%s`). -/
inductive HandlerResult where
  | ok (actions : List (Nat × Nat))
  | crash
deriving DecidableEq

/-- The handler `handle_server_action(json_str)`.  The argument is the result of
`cJSON_Parse` (`none` = parse failure).  Field accesses are embedded
exactly as guarded (or not) in the source: `root`, `type` and `payload`
are NULL-checked, but `payload.action`, `payload.target`, `payload.value`
and `payload.audio` are dereferenced (`->valuestring`) without a check,
and the `valuestring` of a non-string node is NULL. -/
def handle_server_action (parsed : Option JVal) : HandlerResult :=
  match parsed with
  | none => .ok []
  | some root =>
    match getObjectItem root "type" with
    | none => .ok []
    | some t =>
      match valuestring t with
      | none => .crash
      | some ts =>
        if ts = "action" then
          match getObjectItem root "payload" with
          | none => .ok []
          | some payload =>
            match getObjectItem payload "action" with
            | none => .crash
            | some actionItem =>
              match getObjectItem payload "target" with
              | none => .crash
              | some targetItem =>
                match getObjectItem payload "value" with
                | none => .crash
                | some valueItem =>
                  match valuestring actionItem, valuestring targetItem,
                        valuestring valueItem with
                  | some _, some target, some value =>
                      let gpio : Option Nat :=
                        if target = "light" then some 26
                        else if target = "fan" then some 27
                        else if target = "led" then some 2
                        else none
                      match gpio with
                      | some g => .ok [(g, if value = "on" then 1 else 0)]
                      | none => .ok []
                  | _, _, _ => .crash
        else if ts = "play" then
          match getObjectItem root "payload" with
          | none => .ok []
          | some payload =>
            match getObjectItem payload "audio" with
            | none => .crash
            | some audioItem =>
              match valuestring audioItem with
              | none => .crash
              | some _ => .ok []
        else .ok []

end EspMiao

namespace EspMiao

/-! ### Base64 lemmas -/

theorem sextetVal_sextetChar : ∀ k < 64, sextetVal (sextetChar k) = k := by decide

theorem sextetChar_ne_pad : ∀ k < 64, sextetChar k ≠ 61 := by decide

theorem b64_roundtrip : ∀ (l : List Nat), (∀ b ∈ l, b < 256) → b64decode (b64encode l) = l
  | [], _ => rfl
  | [a], h => by
      have ha : a < 256 := h a (by simp)
      have h1 : a / 4 < 64 := by omega
      have h2 : a % 4 * 16 < 64 := by omega
      simp only [b64encode, b64decode, if_pos]
      rw [sextetVal_sextetChar _ h1, sextetVal_sextetChar _ h2]
      simp only [List.cons.injEq, and_true]
      omega
  | [a, b], h => by
      have ha : a < 256 := h a (by simp)
      have hb : b < 256 := h b (by simp)
      have h1 : a / 4 < 64 := by omega
      have h2 : a % 4 * 16 + b / 16 < 64 := by omega
      have h3 : b % 16 * 4 < 64 := by omega
      simp only [b64encode, b64decode, if_neg (sextetChar_ne_pad _ h3), if_pos]
      rw [sextetVal_sextetChar _ h1, sextetVal_sextetChar _ h2,
        sextetVal_sextetChar _ h3]
      simp only [List.cons.injEq, and_true]
      omega
  | a :: b :: c :: rest, h => by
      have ha : a < 256 := h a (by simp)
      have hb : b < 256 := h b (by simp)
      have hc : c < 256 := h c (by simp)
      have h1 : a / 4 < 64 := by omega
      have h2 : a % 4 * 16 + b / 16 < 64 := by omega
      have h3 : b % 16 * 4 + c / 64 < 64 := by omega
      have h4 : c % 64 < 64 := by omega
      have hrest : ∀ x ∈ rest, x < 256 := fun x hx => h x (by simp [hx])
      simp only [b64encode, b64decode, if_neg (sextetChar_ne_pad _ h3),
        if_neg (sextetChar_ne_pad _ h4)]
      rw [sextetVal_sextetChar _ h1, sextetVal_sextetChar _ h2,
        sextetVal_sextetChar _ h3, sextetVal_sextetChar _ h4,
        b64_roundtrip rest hrest]
      simp only [List.cons.injEq, and_true]
      refine ⟨by omega, by omega, by omega⟩

theorem toBytes16_lt (s : Int) : ∀ b ∈ toBytes16 s, b < 256 := by
  intro b hb
  have h1 : 0 ≤ s % 65536 := Int.emod_nonneg s (by norm_num)
  have h2 : s % 65536 < 65536 := Int.emod_lt_of_pos s (by norm_num)
  simp only [toBytes16, List.mem_cons, List.mem_singleton] at hb
  rcases hb with h | h | h
  · omega
  · omega
  · cases h

theorem bytesOfSamples_lt (l : List Int) : ∀ b ∈ bytesOfSamples l, b < 256 := by
  intro b hb
  simp only [bytesOfSamples, List.mem_flatten, List.mem_map] at hb
  obtain ⟨bs, ⟨s, _, rfl⟩, hmem⟩ := hb
  exact toBytes16_lt s b hmem

theorem bytesOfSamples_append (x y : List Int) :
    bytesOfSamples (x ++ y) = bytesOfSamples x ++ bytesOfSamples y := by
  simp [bytesOfSamples]

end EspMiao

namespace EspMiao

/-! ### Structural lemmas about the chunk-sending loop -/

theorem sendChunksAux_cons (sendOk : Nat → Bool) (fuel idx : Nat) (s : Int)
    (rest : List Int) :
    sendChunksAux sendOk (fuel + 1) idx (s :: rest) =
      if sendOk (idx + 1) then
        ((sendChunksAux sendOk fuel (idx + 1)
            ((s :: rest).drop (min (s :: rest).length CHUNK_SAMPLES))).1,
          Envelope.audioChunk idx (decide ((s :: rest).length ≤ CHUNK_SAMPLES))
              (b64encode (bytesOfSamples
                ((s :: rest).take (min (s :: rest).length CHUNK_SAMPLES)))) ::
            (sendChunksAux sendOk fuel (idx + 1)
              ((s :: rest).drop (min (s :: rest).length CHUNK_SAMPLES))).2)
      else (false, []) := by
  rw [sendChunksAux]

theorem chunkLasts_cons_chunk (i : Nat) (b : Bool) (d : List Nat) (t : List Envelope) :
    chunkLasts (Envelope.audioChunk i b d :: t) = b :: chunkLasts t := rfl

theorem chunkIdxs_cons_chunk (i : Nat) (b : Bool) (d : List Nat) (t : List Envelope) :
    chunkIdxs (Envelope.audioChunk i b d :: t) = i :: chunkIdxs t := rfl

theorem chunkDatas_cons_chunk (i : Nat) (b : Bool) (d : List Nat) (t : List Envelope) :
    chunkDatas (Envelope.audioChunk i b d :: t) = d :: chunkDatas t := rfl

theorem chunkLasts_cons_start (ts : Nat) (c : ℚ) (t : List Envelope) :
    chunkLasts (Envelope.audioStart ts c :: t) = chunkLasts t := rfl

theorem chunkIdxs_cons_start (ts : Nat) (c : ℚ) (t : List Envelope) :
    chunkIdxs (Envelope.audioStart ts c :: t) = chunkIdxs t := rfl

theorem chunkDatas_cons_start (ts : Nat) (c : ℚ) (t : List Envelope) :
    chunkDatas (Envelope.audioStart ts c :: t) = chunkDatas t := rfl

theorem sendChunksAux_all_chunks (sendOk : Nat → Bool) :
    ∀ (fuel idx : Nat) (l : List Int) (e : Envelope),
      e ∈ (sendChunksAux sendOk fuel idx l).2 → isStartEnv e = false := by
  intro fuel
  induction fuel with
  | zero =>
      intro idx l e he
      match l with
      | [] => simp [sendChunksAux] at he
      | s :: rest => simp [sendChunksAux] at he
  | succ fuel ih =>
      intro idx l e he
      match l with
      | [] => simp [sendChunksAux] at he
      | s :: rest =>
          rw [sendChunksAux_cons] at he
          by_cases hs : sendOk (idx + 1) = true
          · simp only [hs, if_true, List.mem_cons] at he
            rcases he with rfl | he
            · rfl
            · exact ih _ _ e he
          · simp [hs] at he

theorem sendChunksAux_idxs (sendOk : Nat → Bool) :
    ∀ (fuel idx : Nat) (l : List Int),
      chunkIdxs (sendChunksAux sendOk fuel idx l).2
        = List.range' idx (sendChunksAux sendOk fuel idx l).2.length := by
  intro fuel
  induction fuel with
  | zero =>
      intro idx l
      match l with
      | [] => rfl
      | s :: rest => rfl
  | succ fuel ih =>
      intro idx l
      match l with
      | [] => rfl
      | s :: rest =>
          rw [sendChunksAux_cons]
          by_cases hs : sendOk (idx + 1) = true
          · simp only [hs, if_true, chunkIdxs_cons_chunk, List.length_cons]
            rw [ih, List.range'_succ]
          · simp [hs, chunkIdxs]

theorem sendChunksAux_decode (sendOk : Nat → Bool) :
    ∀ (fuel idx : Nat) (l : List Int), l.length ≤ fuel →
      (sendChunksAux sendOk fuel idx l).1 = true →
      ((chunkDatas (sendChunksAux sendOk fuel idx l).2).map b64decode).flatten
        = bytesOfSamples l := by
  intro fuel
  induction fuel with
  | zero =>
      intro idx l hlen _
      have hl : l = [] := List.length_eq_zero.mp (Nat.le_zero.mp hlen)
      subst hl
      rfl
  | succ fuel ih =>
      intro idx l hlen hsucc
      match l with
      | [] => rfl
      | s :: rest =>
          rw [sendChunksAux_cons] at hsucc ⊢
          by_cases hs : sendOk (idx + 1) = true
          · simp only [hs, if_true] at hsucc ⊢
            have hdlen : ((s :: rest).drop (min (s :: rest).length CHUNK_SAMPLES)).length ≤ fuel := by
              simp only [List.length_drop, List.length_cons, CHUNK_SAMPLES] at *
              omega
            have hrt : b64decode (b64encode (bytesOfSamples
                ((s :: rest).take (min (s :: rest).length CHUNK_SAMPLES))))
                = bytesOfSamples ((s :: rest).take (min (s :: rest).length CHUNK_SAMPLES)) :=
              b64_roundtrip _ (bytesOfSamples_lt _)
            rw [chunkDatas_cons_chunk, List.map_cons, List.flatten_cons, hrt,
              ih _ _ hdlen hsucc, ← bytesOfSamples_append, List.take_append_drop]
          · simp [hs] at hsucc

theorem sendChunksAux_lasts (sendOk : Nat → Bool) :
    ∀ (fuel idx : Nat) (l : List Int), l.length ≤ fuel →
      (sendChunksAux sendOk fuel idx l).1 = true → l ≠ [] →
      ∃ m, chunkLasts (sendChunksAux sendOk fuel idx l).2
        = List.replicate m false ++ [true] := by
  intro fuel
  induction fuel with
  | zero =>
      intro idx l hlen _ hne
      match l with
      | [] => exact absurd rfl hne
      | s :: rest => simp at hlen
  | succ fuel ih =>
      intro idx l hlen hsucc hne
      match l with
      | [] => exact absurd rfl hne
      | s :: rest =>
          rw [sendChunksAux_cons] at hsucc ⊢
          by_cases hs : sendOk (idx + 1) = true
          · simp only [hs, if_true] at hsucc ⊢
            by_cases hlast : (s :: rest).length ≤ CHUNK_SAMPLES
            · have hmin : min (s :: rest).length CHUNK_SAMPLES = (s :: rest).length :=
                Nat.min_eq_left hlast
              have hdrop : (s :: rest).drop (min (s :: rest).length CHUNK_SAMPLES) = [] := by
                rw [hmin]
                exact List.drop_length _
              rw [hdrop]
              refine ⟨0, ?_⟩
              rw [chunkLasts_cons_chunk, decide_eq_true hlast]
              simp [sendChunksAux, chunkLasts]
            · have hmin : min (s :: rest).length CHUNK_SAMPLES = CHUNK_SAMPLES :=
                Nat.min_eq_right (by omega)
              have hdne : (s :: rest).drop (min (s :: rest).length CHUNK_SAMPLES) ≠ [] := by
                rw [← List.length_pos]
                simp only [List.length_drop, hmin]
                omega
              have hdlen : ((s :: rest).drop (min (s :: rest).length CHUNK_SAMPLES)).length ≤ fuel := by
                simp only [List.length_drop, hmin, List.length_cons, CHUNK_SAMPLES] at *
                omega
              obtain ⟨m, hm⟩ := ih (idx + 1) _ hdlen hsucc hdne
              refine ⟨m + 1, ?_⟩
              rw [chunkLasts_cons_chunk, hm, decide_eq_false hlast]
              rw [List.replicate_succ, List.cons_append]
          · simp [hs] at hsucc

theorem chunk_counts : ∀ (envs : List Envelope),
    (chunkLasts envs).length = (chunkIdxs envs).length ∧
    (chunkDatas envs).length = (chunkIdxs envs).length := by
  intro envs
  induction envs with
  | nil => exact ⟨rfl, rfl⟩
  | cons e t ih =>
      cases e with
      | audioStart ts c =>
          rw [chunkLasts_cons_start, chunkIdxs_cons_start, chunkDatas_cons_start]
          exact ih
      | audioChunk i b d =>
          rw [chunkLasts_cons_chunk, chunkIdxs_cons_chunk, chunkDatas_cons_chunk]
          simp [List.length_cons, ih.1, ih.2]

end EspMiao

namespace EspMiao

theorem send_audio_stream_success (ws allocOk : Bool) (sendOk : Nat → Bool)
    (samples : List Int) (conf : ℚ)
    (h : (send_audio_stream ws allocOk sendOk samples conf).1 = true) :
    ws = true ∧ sendOk 0 = true ∧ allocOk = true ∧
    (sendChunksAux sendOk samples.length 0 samples).1 = true ∧
    (send_audio_stream ws allocOk sendOk samples conf).2
      = Envelope.audioStart samples.length conf ::
        (sendChunksAux sendOk samples.length 0 samples).2 := by
  cases ws with
  | false => simp [send_audio_stream] at h
  | true =>
    cases h0 : sendOk 0 with
    | false => rw [send_audio_stream] at h; simp [h0] at h
    | true =>
      cases allocOk with
      | false => simp [send_audio_stream, h0] at h
      | true =>
        refine ⟨rfl, rfl, rfl, ?_, ?_⟩
        · simpa [send_audio_stream, h0] using h
        · simp [send_audio_stream, h0]

/-- Claim C1. If `send_audio_stream` reports success then the `audio_chunk`
envelopes it delivered, taken in `chunk_index` order (their indices are
`0, 1, …` in send order, third conjunct), have base64-decodable payloads
whose decoded concatenation is exactly the byte image of the input sample
buffer — every sample transmitted once, in order, with no gap, duplication
or reordering. -/
theorem C1_reassembly (ws allocOk : Bool) (sendOk : Nat → Bool)
    (samples : List Int) (conf : ℚ)
    (h : (send_audio_stream ws allocOk sendOk samples conf).1 = true) :
    ((chunkDatas (send_audio_stream ws allocOk sendOk samples conf).2).map b64decode).flatten
      = bytesOfSamples samples ∧
    chunkIdxs (send_audio_stream ws allocOk sendOk samples conf).2
      = List.range (chunkIdxs (send_audio_stream ws allocOk sendOk samples conf).2).length := by
  obtain ⟨hws, h0, ha, hc, henv⟩ := send_audio_stream_success ws allocOk sendOk samples conf h
  rw [henv, chunkDatas_cons_start, chunkIdxs_cons_start]
  refine ⟨sendChunksAux_decode sendOk samples.length 0 samples le_rfl hc, ?_⟩
  rw [sendChunksAux_idxs sendOk samples.length 0 samples, List.length_range',
    List.range_eq_range']

theorem C1_reassembly_witness :
    ((chunkDatas (send_audio_stream true true (fun _ => true) [1, -2, 3] (1/2)).2).map b64decode).flatten
      = bytesOfSamples [1, -2, 3] ∧
    chunkIdxs (send_audio_stream true true (fun _ => true) [1, -2, 3] (1/2)).2
      = List.range (chunkIdxs (send_audio_stream true true (fun _ => true) [1, -2, 3] (1/2)).2).length :=
  C1_reassembly true true (fun _ => true) [1, -2, 3] (1/2) (by decide)

/-- Claim C2, counterexample. As stated over every emitted stream the claim
is false: a successful call with `sample_count = 0` emits an `audio_start`
and no chunk at all, and a call for a nonempty recording whose first chunk
send fails emits an `audio_start` and again no chunk — in both emitted
streams no envelope carries `is_last = true`, contradicting "exactly one
chunk carries is_last = true". -/
theorem C2_counterexample :
    ((send_audio_stream true true (fun _ => true) ([] : List Int) 0).1 = true ∧
      ¬ (chunkLasts (send_audio_stream true true (fun _ => true) ([] : List Int) 0).2).count true = 1) ∧
    ((send_audio_stream true true (fun k => decide (k = 0)) [1] 0).2
        = [Envelope.audioStart 1 0] ∧
      ¬ (chunkLasts (send_audio_stream true true (fun k => decide (k = 0)) [1] 0).2).count true = 1) := by
  exact ⟨⟨by decide, by decide⟩, ⟨by decide, by decide⟩⟩

/-- Claim C2, amended. For every stream for which `send_audio_stream`
reports success and whose sample count is positive: the first delivered
envelope is the unique `audio_start` (so it precedes every `audio_chunk`),
the chunk indices are `0..k-1` contiguously in send order for `k ≥ 1`
chunks, and the `is_last` flags are `false` on all chunks except the final
one, which carries `true`. -/
theorem C2_stream_invariants (ws allocOk : Bool) (sendOk : Nat → Bool)
    (samples : List Int) (conf : ℚ)
    (hsucc : (send_audio_stream ws allocOk sendOk samples conf).1 = true)
    (hne : samples ≠ []) :
    (send_audio_stream ws allocOk sendOk samples conf).2.head?
      = some (Envelope.audioStart samples.length conf) ∧
    ((send_audio_stream ws allocOk sendOk samples conf).2.filter isStartEnv).length = 1 ∧
    chunkIdxs (send_audio_stream ws allocOk sendOk samples conf).2
      = List.range (chunkIdxs (send_audio_stream ws allocOk sendOk samples conf).2).length ∧
    0 < (chunkIdxs (send_audio_stream ws allocOk sendOk samples conf).2).length ∧
    chunkLasts (send_audio_stream ws allocOk sendOk samples conf).2
      = List.replicate
          ((chunkIdxs (send_audio_stream ws allocOk sendOk samples conf).2).length - 1) false
        ++ [true] := by
  obtain ⟨hws, h0, ha, hc, henv⟩ := send_audio_stream_success ws allocOk sendOk samples conf hsucc
  obtain ⟨m, hm⟩ := sendChunksAux_lasts sendOk samples.length 0 samples le_rfl hc hne
  have hcnt := chunk_counts (sendChunksAux sendOk samples.length 0 samples).2
  have hklen : (chunkLasts (sendChunksAux sendOk samples.length 0 samples).2).length = m + 1 := by
    rw [hm]
    simp
  rw [henv, chunkIdxs_cons_start, chunkLasts_cons_start]
  refine ⟨rfl, ?_, ?_, ?_, ?_⟩
  · simp only [List.filter_cons, isStartEnv, if_pos]
    have : (sendChunksAux sendOk samples.length 0 samples).2.filter isStartEnv = [] := by
      rw [List.filter_eq_nil_iff]
      intro e he
      simp [sendChunksAux_all_chunks sendOk samples.length 0 samples e he]
    rw [this]
    rfl
  · rw [sendChunksAux_idxs sendOk samples.length 0 samples, List.length_range',
      List.range_eq_range']
  · rw [← hcnt.1, hklen]
    omega
  · rw [hm, ← hcnt.1, hklen]
    simp

theorem C2_stream_invariants_witness :
    (send_audio_stream true true (fun _ => true) [5, 6] 0).2.head?
      = some (Envelope.audioStart ([5, 6] : List Int).length 0) ∧
    ((send_audio_stream true true (fun _ => true) [5, 6] 0).2.filter isStartEnv).length = 1 ∧
    chunkIdxs (send_audio_stream true true (fun _ => true) [5, 6] 0).2
      = List.range (chunkIdxs (send_audio_stream true true (fun _ => true) [5, 6] 0).2).length ∧
    0 < (chunkIdxs (send_audio_stream true true (fun _ => true) [5, 6] 0).2).length ∧
    chunkLasts (send_audio_stream true true (fun _ => true) [5, 6] 0).2
      = List.replicate
          ((chunkIdxs (send_audio_stream true true (fun _ => true) [5, 6] 0).2).length - 1) false
        ++ [true] :=
  C2_stream_invariants true true (fun _ => true) [5, 6] 0 (by decide) (by decide)

/-- Claim C9. Calling `send_audio_stream` with `sample_count = 0` on a
connected socket (with the streaming buffers allocatable and the start
send accepted) delivers exactly one `audio_start` envelope with
`total_samples = 0`, zero `audio_chunk` envelopes, and returns success;
in particular no envelope of this stream carries `is_last = true`. -/
theorem C9_zero_samples (sendOk : Nat → Bool) (conf : ℚ) (h0 : sendOk 0 = true) :
    send_audio_stream true true sendOk [] conf = (true, [Envelope.audioStart 0 conf]) ∧
    chunkLasts (send_audio_stream true true sendOk [] conf).2 = [] := by
  have h : send_audio_stream true true sendOk [] conf
      = (true, [Envelope.audioStart 0 conf]) := by
    simp [send_audio_stream, h0, sendChunksAux]
  refine ⟨h, ?_⟩
  rw [h]
  rfl

theorem C9_zero_samples_witness :
    send_audio_stream true true (fun _ => true) [] 0 = (true, [Envelope.audioStart 0 0]) ∧
    chunkLasts (send_audio_stream true true (fun _ => true) [] 0).2 = [] :=
  C9_zero_samples (fun _ => true) 0 rfl

end EspMiao

namespace EspMiao

/-- Claim C3. In a classification cycle the wake flag is raised exactly when
the `heymiaomiao` confidence is at least the confidence threshold
(inclusive) and the cycle's RMS is strictly above `VAD_THRESHOLD`;
at confidence exactly `thr` and RMS exactly `VAD_THRESHOLD` the gate does
not fire (the RMS comparison is strict). -/
theorem C3_gate (thr c_hey c_noise c_unknown rms : ℚ) :
    ((detection_gate thr
        [("heymiaomiao", c_hey), ("noise", c_noise), ("unknown", c_unknown)] rms).1 = true
      ↔ (thr ≤ c_hey ∧ VAD_THRESHOLD < rms)) ∧
    (detection_gate thr
        [("heymiaomiao", thr), ("noise", c_noise), ("unknown", c_unknown)]
        VAD_THRESHOLD).1 = false := by
  constructor
  · simp [detection_gate]
  · simp [detection_gate]

/-- Claim C4. The claim that `handle_server_action` guards every field access
is refuted by the code: for the message
`{"type":"action","payload":{}}` the handler dereferences the NULL result
of `cJSON_GetObjectItem(payload, "action")` and crashes, and likewise for
a `"play"` message whose payload lacks `"audio"`.  (Messages with unknown
`type` strings are indeed ignored.) -/
theorem C4_handler_crash :
    handle_server_action
        (some (.jobj [("type", .jstr "action"), ("payload", .jobj [])])) = .crash ∧
    handle_server_action
        (some (.jobj [("type", .jstr "play"), ("payload", .jobj [])])) = .crash ∧
    handle_server_action (some (.jobj [("type", .jstr "bogus")])) = .ok [] := by
  exact ⟨rfl, rfl, rfl⟩

/-- Claim C5. If the post-trigger capture fails, the trigger sequence leaves
`recording_complete` unset and emits no envelope at all (no `audio_start`,
no `audio_chunk`; `send_audio_stream` is never reached), and the cycle as a
whole ends with the same observables — the loop simply returns to
listening. -/
theorem C5_capture_failure (n : Nat) (sqrtf : ℚ → ℚ)
    (sliceRes : LoopResult (List ℚ × ℚ)) (classifierRes : Option (ℚ × ℚ × ℚ))
    (thr : ℚ) (ws allocOk : Bool) (sendOk : Nat → Bool) (conf : ℚ) :
    trigger_sequence none ws allocOk sendOk conf = (false, []) ∧
    (inference_cycle n sqrtf sliceRes classifierRes thr none ws allocOk sendOk).recordingComplete
        = false ∧
    (inference_cycle n sqrtf sliceRes classifierRes thr none ws allocOk sendOk).sent = [] := by
  refine ⟨rfl, ?_⟩
  cases sliceRes with
  | failed => exact ⟨rfl, rfl⟩
  | running => exact ⟨rfl, rfl⟩
  | done v =>
      obtain ⟨buf, sum_sq⟩ := v
      cases classifierRes with
      | none => exact ⟨rfl, rfl⟩
      | some cs =>
          obtain ⟨c_hey, c_noise, c_unknown⟩ := cs
          simp only [inference_cycle]
          split
          · exact ⟨rfl, rfl⟩
          · exact ⟨rfl, rfl⟩

end EspMiao

namespace EspMiao

/-- Total number of frames offered by the successful reads of an oracle
prefix. -/
def offeredFrames (reads : List BusRead) : Nat :=
  (reads.map fun r =>
    match r with
    | .ok fs => fs.length
    | .err => 0).sum

theorem sliceLoop_err (n : Nat) (post : List BusRead) :
    ∀ (pre : List BusRead) (acc : List ℚ) (s : ℚ),
      (∀ r ∈ pre, r ≠ .err) → acc.length + offeredFrames pre < n →
      sliceLoop n (pre ++ .err :: post) acc s = .failed := by
  intro pre
  induction pre with
  | nil =>
      intro acc s _ hlt
      simp only [offeredFrames, List.map_nil, List.sum_nil, Nat.add_zero] at hlt
      simp only [List.nil_append, sliceLoop]
      rw [if_neg (by omega)]
  | cons r pre ih =>
      intro acc s hok hlt
      have hr : r ≠ BusRead.err := hok r (List.mem_cons_self r pre)
      cases r with
      | err => exact absurd rfl hr
      | ok frames =>
          simp only [offeredFrames, List.map_cons, List.sum_cons] at hlt
          simp only [List.cons_append, sliceLoop]
          rw [if_neg (by omega)]
          apply ih
          · intro x hx
            exact hok x (List.mem_cons_of_mem _ hx)
          · have hgot : (frames.take (min (n - acc.length) chunk_frames)).length
                ≤ frames.length := by
              simp [List.length_take]
            simp only [List.length_append, List.length_map, offeredFrames]
            omega

/-- Claim C6. If some `i2s_channel_read` fails while the slice acquisition
still needs samples (the successful reads before it offered fewer frames
than requested), then `read_audio_slice` returns failure — carrying no
buffer and no RMS value — and the cycle built on that result invokes no
classifier, evaluates no gate, and emits nothing; the loop goes to the
next iteration. -/
theorem C6_bus_failure (n : Nat) (pre post : List BusRead) (sqrtf : ℚ → ℚ)
    (classifierRes : Option (ℚ × ℚ × ℚ)) (thr : ℚ) (captureRes : Option (List Int))
    (ws allocOk : Bool) (sendOk : Nat → Bool)
    (hok : ∀ r ∈ pre, r ≠ .err) (hlt : offeredFrames pre < n) :
    read_audio_slice (pre ++ .err :: post) n = .failed ∧
    (inference_cycle n sqrtf (read_audio_slice (pre ++ .err :: post) n)
        classifierRes thr captureRes ws allocOk sendOk).classifierInvoked = false ∧
    (inference_cycle n sqrtf (read_audio_slice (pre ++ .err :: post) n)
        classifierRes thr captureRes ws allocOk sendOk).gateEvaluated = false ∧
    (inference_cycle n sqrtf (read_audio_slice (pre ++ .err :: post) n)
        classifierRes thr captureRes ws allocOk sendOk).sent = [] := by
  have hfail : read_audio_slice (pre ++ .err :: post) n = .failed := by
    unfold read_audio_slice
    exact sliceLoop_err n post pre [] 0 hok (by simpa using hlt)
  rw [hfail]
  exact ⟨rfl, rfl, rfl, rfl⟩

theorem C6_bus_failure_witness :
    read_audio_slice [BusRead.err] 1 = .failed ∧
    (inference_cycle 1 (fun x => x) (read_audio_slice [BusRead.err] 1)
        none 0 none true true (fun _ => true)).classifierInvoked = false ∧
    (inference_cycle 1 (fun x => x) (read_audio_slice [BusRead.err] 1)
        none 0 none true true (fun _ => true)).gateEvaluated = false ∧
    (inference_cycle 1 (fun x => x) (read_audio_slice [BusRead.err] 1)
        none 0 none true true (fun _ => true)).sent = [] :=
  C6_bus_failure 1 [] [] (fun x => x) none 0 none true true (fun _ => true)
    (by intro r hr; cases hr) (by simp [offeredFrames])

end EspMiao

namespace EspMiao

theorem slice_sample_eq_rec (frame : Int × Int) :
    slice_sample frame = ((rec_sample frame : Int) : ℚ) := rfl

theorem rec_sample_range (frame : Int × Int) :
    -32768 ≤ rec_sample frame ∧ rec_sample frame ≤ 32767 := by
  simp only [rec_sample]
  split_ifs <;> constructor <;> omega

theorem slice_cast_comp :
    (fun i : Int => (i : ℚ)) ∘ rec_sample = slice_sample :=
  funext fun f => (slice_sample_eq_rec f).symm

theorem recLoop_to_sliceLoop (n : Nat) :
    ∀ (reads : List BusRead) (acc : List Int) (s : ℚ) (out : List Int),
      recLoop n reads acc = .done out →
      ∃ ssq, sliceLoop n reads (acc.map fun i : Int => (i : ℚ)) s
        = .done (out.map fun i : Int => (i : ℚ), ssq) := by
  intro reads
  induction reads with
  | nil =>
      intro acc s out h
      simp only [recLoop] at h
      by_cases hn : n ≤ acc.length
      · rw [if_pos hn] at h
        injection h with h2
        subst h2
        refine ⟨s, ?_⟩
        simp only [sliceLoop]
        rw [if_pos (by simpa using hn)]
      · rw [if_neg hn] at h
        simp at h
  | cons r rest ih =>
      intro acc s out h
      simp only [recLoop] at h
      by_cases hn : n ≤ acc.length
      · rw [if_pos hn] at h
        injection h with h2
        subst h2
        refine ⟨s, ?_⟩
        simp only [sliceLoop]
        rw [if_pos (by simpa using hn)]
      · rw [if_neg hn] at h
        cases r with
        | err => simp at h
        | ok frames =>
            obtain ⟨ssq, hs⟩ := ih
              (acc ++ (frames.take (min (n - acc.length) chunk_frames)).map rec_sample)
              (s + ((frames.take (min (n - acc.length) chunk_frames)).map
                (fun f => slice_sample f * slice_sample f)).sum) out h
            refine ⟨ssq, ?_⟩
            simp only [sliceLoop]
            rw [if_neg (by simpa using hn)]
            simp only [List.length_map]
            rw [List.map_append, List.map_map, slice_cast_comp] at hs
            exact hs

/-- Claim C7. Both readers apply the identical transformation to every
stereo frame — select the left channel, arithmetic right shift by 11,
clamp to `[-32768, 32767]` — so the float sample written by
`read_audio_slice` equals (as a number) the `int16_t` sample written by
`read_audio_to_buffer`, every recorded sample lies in the 16-bit range,
and on the same bus-frame sequence a successful recording capture yields
exactly the sample-wise cast of what the slice reader would produce. -/
theorem C7_reader_equivalence :
    (∀ frame : Int × Int,
        slice_sample frame = ((rec_sample frame : Int) : ℚ) ∧
        -32768 ≤ rec_sample frame ∧ rec_sample frame ≤ 32767) ∧
    (∀ (reads : List BusRead) (n : Nat) (out : List Int),
        read_audio_to_buffer reads n = .done out →
        ∃ ssq, read_audio_slice reads n = .done (out.map fun i : Int => (i : ℚ), ssq)) := by
  constructor
  · intro frame
    exact ⟨slice_sample_eq_rec frame, rec_sample_range frame⟩
  · intro reads n out h
    unfold read_audio_slice
    unfold read_audio_to_buffer at h
    have := recLoop_to_sliceLoop n reads [] 0 out h
    simpa using this

theorem C7_reader_equivalence_witness :
    ∃ ssq, read_audio_slice [BusRead.ok [(4096, 7)]] 1
      = .done ((([2] : List Int).map fun i : Int => (i : ℚ)), ssq) :=
  C7_reader_equivalence.2 [BusRead.ok [(4096, 7)]] 1 [2] rfl

end EspMiao

namespace EspMiao

theorem sliceLoop_done_sum (n : Nat) :
    ∀ (reads : List BusRead) (acc : List ℚ) (s0 : ℚ) (buf : List ℚ) (s : ℚ),
      acc.length ≤ n → sliceLoop n reads acc s0 = .done (buf, s) →
      buf.length = n ∧
      ∃ ext, buf = acc ++ ext ∧ s = s0 + (ext.map fun x => x * x).sum := by
  intro reads
  induction reads with
  | nil =>
      intro acc s0 buf s hle h
      simp only [sliceLoop] at h
      by_cases hn : n ≤ acc.length
      · rw [if_pos hn] at h
        injection h with h2
        injection h2 with h3 h4
        subst h3
        subst h4
        exact ⟨by omega, [], by simp⟩
      · rw [if_neg hn] at h
        simp at h
  | cons r rest ih =>
      intro acc s0 buf s hle h
      simp only [sliceLoop] at h
      by_cases hn : n ≤ acc.length
      · rw [if_pos hn] at h
        injection h with h2
        injection h2 with h3 h4
        subst h3
        subst h4
        exact ⟨by omega, [], by simp⟩
      · rw [if_neg hn] at h
        cases r with
        | err => simp at h
        | ok frames =>
            have hle2 : (acc ++ (frames.take (min (n - acc.length) chunk_frames)).map
                slice_sample).length ≤ n := by
              simp only [List.length_append, List.length_map, List.length_take]
              omega
            obtain ⟨hlen, ext, hext, hsum⟩ := ih _ _ buf s hle2 h
            refine ⟨hlen,
              (frames.take (min (n - acc.length) chunk_frames)).map slice_sample ++ ext,
              by rw [hext, List.append_assoc], ?_⟩
            rw [hsum, List.map_append, List.sum_append, List.map_map]
            have hcomp : ((fun x : ℚ => x * x) ∘ slice_sample)
                = fun f => slice_sample f * slice_sample f := rfl
            rw [hcomp]
            ring

/-- Claim C8. On a successful `read_audio_slice` of `n > 0` samples the
reported RMS `sqrtf(sum_sq / n)` equals the square root of the mean of the
squares of all `n` scaled output samples (the sum is accumulated in the
single acquisition pass); for an all-zero buffer the RMS is 0, and for a
buffer of constant amplitude `A ≥ 0` the RMS is exactly `A`. -/
theorem C8_rms (n : Nat) (reads : List BusRead) (buf : List ℚ) (s : ℚ)
    (hn : 0 < n) (h : read_audio_slice reads n = .done (buf, s)) :
    rms_value s n = Real.sqrt ((((buf.map fun x => x * x).sum : ℚ) : ℝ) / (n : ℝ)) ∧
    buf.length = n ∧
    ((∀ x ∈ buf, x = 0) → rms_value s n = 0) ∧
    (∀ A : ℚ, 0 ≤ A → buf = List.replicate n A → rms_value s n = (A : ℝ)) := by
  obtain ⟨hlen, ext, hext, hsum⟩ :=
    sliceLoop_done_sum n reads [] 0 buf s (by simp) h
  have hs : s = (buf.map fun x => x * x).sum := by
    have hbe : buf = ext := by simpa using hext
    rw [hbe]
    simpa using hsum
  refine ⟨by rw [rms_value, hs], hlen, ?_, ?_⟩
  · intro hz
    have hzero : (buf.map fun x => x * x).sum = 0 := by
      apply List.sum_eq_zero
      intro y hy
      simp only [List.mem_map] at hy
      obtain ⟨x, hx, rfl⟩ := hy
      rw [hz x hx]
      ring
    rw [rms_value, hs, hzero]
    simp
  · intro A hA hrep
    have hmap : ((List.replicate n A).map fun x : ℚ => x * x)
        = List.replicate n (A * A) := by
      simp
    rw [rms_value, hs, hrep, hmap, List.sum_replicate]
    have hc : ((n • (A * A) : ℚ) : ℝ) = (n : ℝ) * ((A : ℝ) * (A : ℝ)) := by
      push_cast [nsmul_eq_mul]
      ring
    have hnne : (n : ℝ) ≠ 0 := Nat.cast_ne_zero.mpr (by omega)
    rw [hc, mul_div_cancel_left₀ _ hnne]
    exact Real.sqrt_mul_self (by exact_mod_cast hA)

theorem C8_rms_witness : rms_value 50 2 = ((5 : ℚ) : ℝ) :=
  (C8_rms 2 [BusRead.ok [(10240, 0), (10240, 0)]] [5, 5] 50 (by omega)
      (by
        have h5 : Int.shiftRight 10240 11 = 5 := by decide
        norm_num [read_audio_slice, sliceLoop, chunk_frames, slice_sample, h5])).2.2.2
    5 (by norm_num) rfl

end EspMiao

namespace EspMiao

theorem sliceLoop_no_running (n : Nat) :
    ∀ (reads : List BusRead) (acc : List ℚ) (s : ℚ),
      (∀ fs, BusRead.ok fs ∈ reads → 1 ≤ fs.length) →
      n ≤ acc.length + reads.length →
      sliceLoop n reads acc s ≠ .running := by
  intro reads
  induction reads with
  | nil =>
      intro acc s _ hlen
      simp only [List.length_nil, Nat.add_zero] at hlen
      simp only [sliceLoop]
      rw [if_pos hlen]
      simp
  | cons r rest ih =>
      intro acc s hfs hlen
      simp only [sliceLoop]
      by_cases hn : n ≤ acc.length
      · rw [if_pos hn]
        simp
      · rw [if_neg hn]
        cases r with
        | err => simp
        | ok frames =>
            apply ih
            · intro fs hmem
              exact hfs fs (List.mem_cons_of_mem _ hmem)
            · have h1 : 1 ≤ frames.length := hfs frames (List.mem_cons_self _ _)
              simp only [List.length_cons] at hlen
              simp only [List.length_append, List.length_map, List.length_take,
                chunk_frames]
              omega

theorem recLoop_no_running (n : Nat) :
    ∀ (reads : List BusRead) (acc : List Int),
      (∀ fs, BusRead.ok fs ∈ reads → 1 ≤ fs.length) →
      n ≤ acc.length + reads.length →
      recLoop n reads acc ≠ .running := by
  intro reads
  induction reads with
  | nil =>
      intro acc _ hlen
      simp only [List.length_nil, Nat.add_zero] at hlen
      simp only [recLoop]
      rw [if_pos hlen]
      simp
  | cons r rest ih =>
      intro acc hfs hlen
      simp only [recLoop]
      by_cases hn : n ≤ acc.length
      · rw [if_pos hn]
        simp
      · rw [if_neg hn]
        cases r with
        | err => simp
        | ok frames =>
            apply ih
            · intro fs hmem
              exact hfs fs (List.mem_cons_of_mem _ hmem)
            · have h1 : 1 ≤ frames.length := hfs frames (List.mem_cons_self _ _)
              simp only [List.length_cons] at hlen
              simp only [List.length_append, List.length_map, List.length_take,
                chunk_frames]
              omega

theorem sliceLoop_stall (n : Nat) (hn : 0 < n) :
    ∀ (k : Nat) (s : ℚ),
      sliceLoop n (List.replicate k (BusRead.ok [])) [] s = .running := by
  intro k
  induction k with
  | zero =>
      intro s
      simp only [List.replicate, sliceLoop]
      rw [if_neg (by simp only [List.length_nil]; omega)]
  | succ k ih =>
      intro s
      rw [List.replicate_succ]
      simp only [sliceLoop]
      rw [if_neg (by simp only [List.length_nil]; omega)]
      simp only [List.take_nil, List.map_nil, List.append_nil, List.nil_append,
        List.sum_nil]
      exact ih _

theorem recLoop_stall (n : Nat) (hn : 0 < n) :
    ∀ (k : Nat),
      recLoop n (List.replicate k (BusRead.ok [])) [] = .running := by
  intro k
  induction k with
  | zero =>
      simp only [List.replicate, recLoop]
      rw [if_neg (by simp only [List.length_nil]; omega)]
  | succ k ih =>
      rw [List.replicate_succ]
      simp only [recLoop]
      rw [if_neg (by simp only [List.length_nil]; omega)]
      simp only [List.take_nil, List.map_nil, List.append_nil, List.nil_append]
      exact ih

/-- Claim C10. Under the precondition that every successful bus read delivers
at least one stereo frame, both acquisition loops terminate: within `n`
reads they are no longer running (first conjunct), because every
successful read strictly grows `samples_read` (second and third
conjuncts).  Without the precondition the loops never finish: an endless
supply of successful zero-frame reads leaves them running after any number
of reads (fourth conjunct). -/
theorem C10_termination :
    (∀ (reads : List BusRead) (n : Nat),
        (∀ fs, BusRead.ok fs ∈ reads → 1 ≤ fs.length) → n ≤ reads.length →
        read_audio_slice reads n ≠ .running ∧
        read_audio_to_buffer reads n ≠ .running) ∧
    (∀ (n : Nat) (frames : List (Int × Int)) (rest : List BusRead)
        (acc : List ℚ) (s : ℚ), acc.length < n → 1 ≤ frames.length →
        ∃ acc2 s2, sliceLoop n (BusRead.ok frames :: rest) acc s
            = sliceLoop n rest acc2 s2 ∧ acc.length < acc2.length) ∧
    (∀ (n : Nat) (frames : List (Int × Int)) (rest : List BusRead)
        (acc : List Int), acc.length < n → 1 ≤ frames.length →
        ∃ acc2, recLoop n (BusRead.ok frames :: rest) acc
            = recLoop n rest acc2 ∧ acc.length < acc2.length) ∧
    (∀ (n : Nat), 0 < n → ∀ (k : Nat),
        read_audio_slice (List.replicate k (BusRead.ok [])) n = .running ∧
        read_audio_to_buffer (List.replicate k (BusRead.ok [])) n = .running) := by
  refine ⟨?_, ?_, ?_, ?_⟩
  · intro reads n hfs hlen
    exact ⟨sliceLoop_no_running n reads [] 0 hfs (by simpa using hlen),
      recLoop_no_running n reads [] hfs (by simpa using hlen)⟩
  · intro n frames rest acc s hlt hfs
    refine ⟨acc ++ (frames.take (min (n - acc.length) chunk_frames)).map slice_sample,
      s + ((frames.take (min (n - acc.length) chunk_frames)).map
        (fun f => slice_sample f * slice_sample f)).sum, ?_, ?_⟩
    · simp only [sliceLoop]
      rw [if_neg (by omega)]
    · simp only [List.length_append, List.length_map, List.length_take, chunk_frames]
      omega
  · intro n frames rest acc hlt hfs
    refine ⟨acc ++ (frames.take (min (n - acc.length) chunk_frames)).map rec_sample,
      ?_, ?_⟩
    · simp only [recLoop]
      rw [if_neg (by omega)]
    · simp only [List.length_append, List.length_map, List.length_take, chunk_frames]
      omega
  · intro n hn k
    exact ⟨sliceLoop_stall n hn k 0, recLoop_stall n hn k⟩

theorem C10_termination_witness :
    (read_audio_slice [BusRead.ok [(0, 0)]] 1 ≠ .running ∧
      read_audio_to_buffer [BusRead.ok [(0, 0)]] 1 ≠ .running) ∧
    (read_audio_slice (List.replicate 3 (BusRead.ok [])) 1 = .running ∧
      read_audio_to_buffer (List.replicate 3 (BusRead.ok [])) 1 = .running) :=
  ⟨C10_termination.1 [BusRead.ok [(0, 0)]] 1
      (by
        intro fs h
        rw [List.mem_singleton] at h
        injection h with h2
        subst h2
        decide)
      (by simp),
    C10_termination.2.2.2 1 (by omega) 3⟩

end EspMiao
